import Mathlib

/-!
Shallow embedding of the probability-normalization and weighted-selection
engine of the llm-prob repository.

JavaScript `number` (IEEE float64) is modelled by `ℝ`: all arithmetic is
exact, so tolerance claims ("± 1e-6") are established exactly.  A separate
small domain `FP` (a real number, NaN, or a signed infinity) is used for the
one claim that is about the special float values themselves.

String primitives (`trim`, `toLowerCase`, `startsWith`) are modelled
character-list-wise with the ASCII semantics the repository relies on.
-/

namespace LlmProb

/-- One token outcome as it flows through the system: `Token` in
`src/lib/llm.ts` and (field for field the same shape) `Alternative` in the
game components. -/
structure Token where
  token : String
  token_id : Int
  probability : ℝ
  log_probability : ℝ
  is_other : Bool

instance : Inhabited Token := ⟨⟨"", 0, 0, 0, false⟩⟩

/-- One raw candidate from the model API: `{ token, logProbability }` as
consumed by `logprobsToProbs` in `src/lib/llm.ts`. -/
structure RawCandidate where
  token : String
  logProbability : ℝ

/-- Sum of the `probability` fields of a token list (the
`reduce((sum, t) => sum + t.probability, 0)` idiom of the source). -/
noncomputable def probSum (l : List Token) : ℝ :=
  (l.map (fun t => t.probability)).sum

/- ---------------------------------------------------------------------
String primitives (JS `trim` / `toLowerCase` / `startsWith`), modelled on
the character list of a string so that concrete instances evaluate.
--------------------------------------------------------------------- -/

/-- JS whitespace as far as the repository's ASCII tokens are concerned:
space, tab, and the line-break control characters. -/
def jsWhitespace (c : Char) : Bool :=
  c = ' ' || c = Char.ofNat 9 || c = Char.ofNat 10 ||
    c = Char.ofNat 11 || c = Char.ofNat 12 || c = Char.ofNat 13

/-- `String.prototype.trim`: strip leading and trailing whitespace. -/
def jsTrim (s : String) : String :=
  ⟨((s.data.dropWhile jsWhitespace).reverse.dropWhile jsWhitespace).reverse⟩

/-- `String.prototype.toLowerCase` on the ASCII range. -/
def jsCharToLower (c : Char) : Char :=
  if 'A' ≤ c ∧ c ≤ 'Z' then Char.ofNat (c.toNat + 32) else c

/-- Lower-case every character (ASCII semantics of `toLowerCase`). -/
def jsToLower (s : String) : String :=
  ⟨s.data.map jsCharToLower⟩

/-- `s.startsWith(' ')`: does the string begin with a space? -/
def startsWithSpace (s : String) : Bool :=
  match s.data with
  | [] => false
  | c :: _ => c = ' '

/- ---------------------------------------------------------------------
`isValidToken` from `src/lib/colors.ts`.
--------------------------------------------------------------------- -/

/-- The JS regex `/^<.*>$/` (note `.` does not match a line terminator):
an opening `<`, any non-line-terminator run, a closing `>`. -/
def matchesAngleForm (s : String) : Bool :=
  match s.data with
  | [] => false
  | c :: rest =>
    c = '<' && rest ≠ [] && rest.getLast? = some '>' &&
      (rest.dropLast.all fun m =>
        !(m = Char.ofNat 10 || m = Char.ofNat 13 ||
          m = Char.ofNat 0x2028 || m = Char.ofNat 0x2029))

/-- The JS regex `/^[\x00-\x1F\x7F]+$/`: a non-empty string made only of
C0 control characters or DEL. -/
def matchesAllControl (s : String) : Bool :=
  s.data ≠ [] && s.data.all fun c => decide (c.toNat ≤ 31) || decide (c.toNat = 127)

/-- A hexadecimal digit, as the character class `[0-9a-fA-F]`. -/
def isHexDigitChar (c : Char) : Bool :=
  c.isDigit || ('a' ≤ c && c ≤ 'f') || ('A' ≤ c && c ≤ 'F')

/-- The JS regex `/^\\x[0-9a-fA-F]+$/`: a literal backslash-x followed by
one or more hex digits and nothing else. -/
def matchesByteEscape (s : String) : Bool :=
  match s.data with
  | '\\' :: 'x' :: rest => rest ≠ [] && rest.all isHexDigitChar
  | _ => false

/-- `isValidToken` from `src/lib/colors.ts`: rejects empty and
whitespace-only tokens, control-token forms `<...>`, all-control-character
tokens and byte-escape literals. -/
def isValidToken (token : String) : Bool :=
  if token = "" then false
  else
    let trimmed := jsTrim token
    if trimmed = "" then false
    else if matchesAngleForm trimmed then false
    else if matchesAllControl trimmed then false
    else if matchesByteEscape trimmed then false
    else true

/- ---------------------------------------------------------------------
`logprobsToProbs` and `addOtherCategory` from `src/lib/llm.ts`.
--------------------------------------------------------------------- -/

/-- `Math.max(...logprobs)` over a non-empty list (the empty case never
arises: the caller returns early on an empty candidate list). -/
noncomputable def maxLogProb : List ℝ → ℝ
  | [] => 0
  | x :: xs => xs.foldl max x

/-- `const logprobs = candidates.map(c => c.logProbability)`. -/
def candLogProbs (candidates : List RawCandidate) : List ℝ :=
  candidates.map fun c => c.logProbability

/-- `const sumExp = expValues.reduce(...)`: the softmax partition function
`Σ exp(logprob - maxLogProb)`. -/
noncomputable def softmaxDenom (candidates : List RawCandidate) : ℝ :=
  ((candLogProbs candidates).map fun lp =>
    Real.exp (lp - maxLogProb (candLogProbs candidates))).sum

/-- `logprobsToProbs` from `src/lib/llm.ts`: max-shifted softmax.  The
source computes `expValues[i] = exp(logprobs[i] - maxLogProb)` and then
maps candidate `i` to `expValues[i] / sumExp`; indexing a map by the
position of the mapped element is written here as a map over the
enumerated list, and the source's three `let`-bound intermediates are the
named definitions `candLogProbs`, `maxLogProb` and `softmaxDenom`. -/
noncomputable def logprobsToProbs (candidates : List RawCandidate) : List Token :=
  match candidates with
  | [] => []
  | _ :: _ =>
    candidates.enum.map fun p =>
      { token := p.2.token
        token_id := (p.1 : Int)
        probability :=
          Real.exp (p.2.logProbability - maxLogProb (candLogProbs candidates)) /
            softmaxDenom candidates
        log_probability := p.2.logProbability
        is_other := false }

/-- `const remainingProb = Math.max(0, 1.0 - totalProb)` where `totalProb`
is the probability sum of the input tokens. -/
noncomputable def remainingProb (tokens : List Token) : ℝ :=
  max 0 (1.0 - probSum tokens)

/-- The synthetic `otherToken` literal of `addOtherCategory`. -/
noncomputable def otherToken (p : ℝ) : Token :=
  { token := "<OTHER>"
    token_id := -1
    probability := p
    log_probability := Real.log p
    is_other := true }

/-- `addOtherCategory` from `src/lib/llm.ts` (the source defaults
`minProbability` to `0.01`; the default is passed explicitly here).  The
source's `let`-bound `remainingProb` and the token literal are the named
definitions above. -/
noncomputable def addOtherCategory (tokens : List Token) (minProbability : ℝ) : List Token :=
  if minProbability ≤ remainingProb tokens then tokens ++ [otherToken (remainingProb tokens)]
  else tokens

/-- The distribution-building composition inside `getNextToken`
(`src/lib/llm.ts`): softmax normalization followed by "other" synthesis
with the default threshold. -/
noncomputable def getNextTokenAlternatives (candidates : List RawCandidate) : List Token :=
  addOtherCategory (logprobsToProbs candidates) 0.01

/- ---------------------------------------------------------------------
`selectWeighted` from `src/lib/llm.ts`, and the identical loop in
`SpinningWheel.spin` / `SlotMachine.getWinningToken`.  The source reads
`Math.random()` internally; the draw `r` is an explicit argument here.
--------------------------------------------------------------------- -/

/-- The `for (const alt of alternatives) { random -= alt.prob; if (random
<= 0) return alt; }` loop: the first alternative at which the decremented
draw reaches zero, or `none` when the loop falls through. -/
noncomputable def selectLoop (random : ℝ) : List Token → Option Token
  | [] => none
  | a :: rest =>
    if random - a.probability ≤ 0 then some a else selectLoop (random - a.probability) rest

/-- The inclusive cumulative probability of position `i`: the sum of the
probabilities of the outcomes up to and including `i` (the specification's
"cumulative sum (inclusive)"). -/
noncomputable def cumProb (alts : List Token) (i : ℕ) : ℝ :=
  probSum (alts.take (i + 1))

/-- `selectWeighted` from `src/lib/llm.ts`: empty input yields `""`,
otherwise the loop winner's token, with `alternatives[0].token` as the
fall-through guard. -/
noncomputable def selectWeighted (alternatives : List Token) (r : ℝ) : String :=
  match alternatives with
  | [] => ""
  | a₀ :: _ =>
    match selectLoop (r * probSum alternatives) alternatives with
    | some a => a.token
    | none => a₀.token

/-- The index variant of the same loop, as written in `SpinningWheel.spin`
(`selectedIndex` starts at 0 and the loop breaks at the winner, so the
fall-through keeps index 0). -/
noncomputable def selectLoopIdx (random : ℝ) : List Token → Option ℕ
  | [] => none
  | a :: rest =>
    if random - a.probability ≤ 0 then some 0
    else (selectLoopIdx (random - a.probability) rest).map (· + 1)

/-- The winning index computed by `SpinningWheel.spin`. -/
noncomputable def spinSelectedIndex (alternatives : List Token) (r : ℝ) : ℕ :=
  (selectLoopIdx (r * probSum alternatives) alternatives).getD 0

/-- What `SpinningWheel.spin` reports: `alternatives[selectedIndex].token`,
passed to `onResult` unchanged (no "other" resolution in this component). -/
noncomputable def spinReportedToken (alternatives : List Token) (r : ℝ) : String :=
  (alternatives.getD (spinSelectedIndex alternatives r) default).token

/- ---------------------------------------------------------------------
The merge step shared verbatim by `WordBuilder`, `SlotMachine`, `DiceRoll`,
`LotteryBalls` and `Plinko`: a `Map` keyed by the trimmed, lower-cased
display text, iterated in insertion order.  The JS `Map` is modelled as an
association list: `set` on a present key updates the entry in place, `set`
on an absent key appends.
--------------------------------------------------------------------- -/

/-- `displayKey`: `alt.token.trim().toLowerCase()`. -/
def displayKey (t : String) : String := jsToLower (jsTrim t)

/-- JS `Map.prototype.get`. -/
def mapGet (m : List (String × Token)) (k : String) : Option Token :=
  List.lookup k m

/-- JS `Map.prototype.set`: update in place when the key is present,
append otherwise. -/
def mapSet : List (String × Token) → String → Token → List (String × Token)
  | [], k, v => [(k, v)]
  | e :: rest, k, v => if e.1 = k then (k, v) :: rest else e :: mapSet rest k v

/-- The merged entry built when a second variant of a display key arrives:
probabilities add, log-probabilities combine by log-sum-exp, and the
space-prefixed variant's text is preferred (`alt` wins only when it starts
with a space); the other fields keep the first-seen entry's values. -/
noncomputable def mergedEntry (existing alt : Token) : Token :=
  { existing with
    token := if startsWithSpace alt.token then alt.token else existing.token
    probability := existing.probability + alt.probability
    log_probability :=
      Real.log (Real.exp existing.log_probability + Real.exp alt.log_probability) }

/-- One iteration of the `for (const alt of filtered)` merge loop, with
`key = displayKey alt.token` the `Map` key. -/
noncomputable def mergeStep (acc : List (String × Token)) (alt : Token) : List (String × Token) :=
  match mapGet acc (displayKey alt.token) with
  | some existing => mapSet acc (displayKey alt.token) (mergedEntry existing alt)
  | none => mapSet acc (displayKey alt.token) alt

/-- The whole merge: fold the loop over the input and read the map's
values in insertion order (`Array.from(mergedMap.values())`). -/
noncomputable def mergeTokens (l : List Token) : List Token :=
  (l.foldl mergeStep []).map Prod.snd

/-- The filter applied before merging in every game component:
`alternatives.filter(a => !a.is_other && isValidToken(a.token))`. -/
def filterValid (alternatives : List Token) : List Token :=
  alternatives.filter fun a => !a.is_other && isValidToken a.token

/-- `.sort((a, b) => b.probability - a.probability)`: descending by
probability (a stable sort, as the JS runtime guarantees). -/
noncomputable def sortByProbDesc (l : List Token) : List Token :=
  l.mergeSort fun a b => decide (b.probability ≤ a.probability)

/-- The shared filter→merge→sort prefix of every game component's
pipeline. -/
noncomputable def filteredMergedSorted (alternatives : List Token) : List Token :=
  sortByProbDesc (mergeTokens (filterValid alternatives))

/- ---------------------------------------------------------------------
`DiceRoll` (`src/components/games/DiceRoll.tsx`): threshold split with a
six-face cap, and `selectWeighted` with "Other" resolution from the
held-out pool.
--------------------------------------------------------------------- -/

/-- One iteration of the `DiceRoll` split loop: a token joins the faces
when its probability clears the 3% threshold and fewer than six faces
exist so far; everything else joins the other pool. -/
noncomputable def diceSplitStep (mo : List Token × List Token) (alt : Token) : List Token × List Token :=
  if 0.03 ≤ alt.probability ∧ mo.1.length < 6 then (mo.1 ++ [alt], mo.2)
  else (mo.1, mo.2 ++ [alt])

/-- The `DiceRoll` split of the sorted merged tokens into `{faces,
otherTokens}`. -/
noncomputable def diceSplit (sorted : List Token) : List Token × List Token :=
  sorted.foldl diceSplitStep ([], [])

/-- The synthetic aggregate item `DiceRoll.selectWeighted` pushes when the
other pool is non-empty. -/
noncomputable def diceOtherItem (otherTokens : List Token) : Token :=
  { token := "Other"
    token_id := -1
    probability := probSum otherTokens
    log_probability := 0
    is_other := true }

/-- `const allItems = [...faces.slice(0, 6)]` plus the aggregate "Other"
item when the pool is non-empty. -/
noncomputable def diceAllItems (faces otherTokens : List Token) : List Token :=
  faces.take 6 ++ (if otherTokens.isEmpty then [] else [diceOtherItem otherTokens])

/-- `DiceRoll.selectWeighted` with the two random draws made explicit: `r`
is the weighted draw and `j` the pool pick (`Math.floor(Math.random() *
otherTokens.length)`, hence reduced mod the pool size).  When the winner's
token reads `"Other"` and the pool is non-empty, a pool token is returned;
the fall-through guard is `allItems[0]?.token || ''`. -/
noncomputable def diceSelectWeighted (faces otherTokens : List Token) (r : ℝ) (j : ℕ) : String :=
  match selectLoop (r * probSum (diceAllItems faces otherTokens))
      (diceAllItems faces otherTokens) with
  | some item =>
    if item.token = "Other" ∧ otherTokens.isEmpty = false then
      (otherTokens.getD (j % otherTokens.length) default).token
    else item.token
  | none => ((diceAllItems faces otherTokens).getD 0 default).token

/-- The token `DiceRoll.roll` reports for a full pipeline run on the raw
alternatives. -/
noncomputable def diceReportedToken (alternatives : List Token) (r : ℝ) (j : ℕ) : String :=
  diceSelectWeighted (diceSplit (filteredMergedSorted alternatives)).1
    (diceSplit (filteredMergedSorted alternatives)).2 r j

/- ---------------------------------------------------------------------
`Plinko` (`src/components/games/Plinko.tsx`): centered arrangement and
probability-proportioned bins.
--------------------------------------------------------------------- -/

/-- The `arrangeForCenter` loop body over the enumerated sorted list:
index 0 is skipped, odd indices are unshifted onto the left run, even
indices are pushed onto the right run. -/
noncomputable def arrangeLoop (pairs : List (ℕ × Token)) : ℕ → List (ℕ × Token) × List (ℕ × Token) → List (ℕ × Token) × List (ℕ × Token) :=
  fun i lr =>
    match pairs, i, lr with
    | [], _, lr => lr
    | x :: xs, i, lr =>
      if i = 0 then arrangeLoop xs (i + 1) lr
      else if i % 2 = 1 then arrangeLoop xs (i + 1) (x :: lr.1, lr.2)
      else arrangeLoop xs (i + 1) (lr.1, lr.2 ++ [x])

/-- The even-position / odd-position split of a list: what the
`arrangeForCenter` loop's alternating unshift/push computes over the tail
of the sorted list. -/
def altSplit {α : Type} : List α → List α × List α
  | [] => ([], [])
  | x :: xs => (x :: (altSplit xs).2, (altSplit xs).1)

/-- Descending sort of `{ alt, colorIndex }` pairs by the alternative's
probability, as `arrangeForCenter` re-sorts its input. -/
noncomputable def sortPairsByProbDesc (l : List (ℕ × Token)) : List (ℕ × Token) :=
  l.mergeSort fun a b => decide (b.2.probability ≤ a.2.probability)

/-- `arrangeForCenter` from `Plinko.tsx`: identity on lists of length at
most one, otherwise `[...left, sorted[0], ...right]` with the loop above
filling the two runs. -/
noncomputable def arrangeForCenter (alts : List (ℕ × Token)) : List (ℕ × Token) :=
  if alts.length ≤ 1 then alts
  else
    let sorted := sortPairsByProbDesc alts
    let lr := arrangeLoop sorted 0 ([], [])
    lr.1 ++ sorted.take 1 ++ lr.2

/-- One bin of the Plinko board. -/
structure BinData where
  token : String
  probability : ℝ
  isOther : Bool
  otherTokens : List Token
  widthPercent : ℝ
  startPercent : ℝ
  colorIndex : Int

/-- One iteration of the `Plinko` split loop over the enumerated sorted
list: tokens at or above the 3% threshold become `{ alt, colorIndex }`
main entries (the color index is the sorted position), the rest join the
other pool. -/
noncomputable def plinkoSplitStep (mo : List (ℕ × Token) × List Token) (p : ℕ × Token) : List (ℕ × Token) × List Token :=
  if 0.03 ≤ p.2.probability then (mo.1 ++ [p], mo.2) else (mo.1, mo.2 ++ [p.2])

/-- The `Plinko` split of the enumerated sorted merged tokens. -/
noncomputable def plinkoSplit (sorted : List Token) : List (ℕ × Token) × List Token :=
  sorted.enum.foldl plinkoSplitStep ([], [])

/-- One iteration of the main-bin construction loop: each centered entry
becomes a bin of width proportional to its probability, accumulating
`startPercent`. -/
noncomputable def plinkoBinStep (totalProb : ℝ) (acc : List BinData × ℝ) (p : ℕ × Token) : List BinData × ℝ :=
  (acc.1 ++ [{ token := p.2.token
               probability := p.2.probability
               isOther := false
               otherTokens := []
               widthPercent := p.2.probability / totalProb * 100
               startPercent := acc.2
               colorIndex := (p.1 : Int) }],
    acc.2 + p.2.probability / totalProb * 100)

/-- The main-bin construction loop of `Plinko.bins`. -/
noncomputable def plinkoMainBins (centerArranged : List (ℕ × Token)) (totalProb : ℝ) : List BinData × ℝ :=
  centerArranged.foldl (plinkoBinStep totalProb) ([], 0)

/-- `mainProbSum`: the probability sum over `{ alt, colorIndex }` pairs. -/
noncomputable def pairProbSum (l : List (ℕ × Token)) : ℝ :=
  (l.map fun q => q.2.probability).sum

/-- The "Other" bin literal of `Plinko.bins`. -/
noncomputable def plinkoOtherBin (otherTokens : List Token) (totalProb startPercent : ℝ) : BinData :=
  { token := "Other"
    probability := probSum otherTokens
    isOther := true
    otherTokens := otherTokens
    widthPercent := probSum otherTokens / totalProb * 100
    startPercent := startPercent
    colorIndex := -1 }

/-- The bin assembly of `Plinko.bins` from the split `{mainTokens,
otherTokens}` pair: `totalProb = mainProbSum + otherProbSum`, the main
tokens are center-arranged and laid out, and the "Other" bin is appended
when the pool is non-empty with positive mass. -/
noncomputable def plinkoBinsAux (mo : List (ℕ × Token) × List Token) : List BinData :=
  if mo.2.isEmpty = false ∧ 0 < probSum mo.2 then
    (plinkoMainBins (arrangeForCenter mo.1) (pairProbSum mo.1 + probSum mo.2)).1 ++
      [plinkoOtherBin mo.2 (pairProbSum mo.1 + probSum mo.2)
        (plinkoMainBins (arrangeForCenter mo.1) (pairProbSum mo.1 + probSum mo.2)).2]
  else (plinkoMainBins (arrangeForCenter mo.1) (pairProbSum mo.1 + probSum mo.2)).1

/-- `bins` from `Plinko.tsx`: filter, merge, sort, split at 3%, then
assemble the proportional bins. -/
noncomputable def plinkoBins (alternatives : List Token) : List BinData :=
  plinkoBinsAux (plinkoSplit (filteredMergedSorted alternatives))

/-- What `Plinko.drop` reports once the ball lands in `bin`, with the pool
pick `j` made explicit: an "Other" bin resolves to a held-out pool token,
any other bin reports its own token. -/
noncomputable def plinkoReportedToken (bin : BinData) (j : ℕ) : String :=
  if bin.isOther ∧ bin.otherTokens.isEmpty = false then
    (bin.otherTokens.getD (j % bin.otherTokens.length) default).token
  else bin.token

/-- A token the game pipeline may display or report for input `alts`: it is
not an "other" placeholder, its text passes `isValidToken`, and its text is
the text of some valid, non-other input alternative. -/
def goodToken (alts : List Token) (x : Token) : Prop :=
  x.is_other = false ∧ isValidToken x.token = true ∧
    ∃ y ∈ alts, y.is_other = false ∧ isValidToken y.token = true ∧ x.token = y.token

/- ---------------------------------------------------------------------
Float special values.  `FP` refines the real-number model with the IEEE
special values NaN and ±Infinity (finite overflow is not modelled; only
the special-value propagation the claim under test is about).
--------------------------------------------------------------------- -/

/-- A float64 value: a finite real, NaN, or a signed infinity. -/
inductive FP where
  | num (x : ℝ)
  | nan
  | inf
  | ninf

/-- `Math.max` on two values: NaN-propagating, infinity-dominating. -/
noncomputable def fmax : FP → FP → FP
  | FP.nan, _ => FP.nan
  | _, FP.nan => FP.nan
  | FP.inf, _ => FP.inf
  | _, FP.inf => FP.inf
  | FP.ninf, b => b
  | a, FP.ninf => a
  | FP.num x, FP.num y => FP.num (max x y)

/-- Float subtraction: `Infinity - Infinity` is NaN. -/
noncomputable def fsub : FP → FP → FP
  | FP.nan, _ => FP.nan
  | _, FP.nan => FP.nan
  | FP.inf, FP.inf => FP.nan
  | FP.inf, _ => FP.inf
  | FP.ninf, FP.ninf => FP.nan
  | FP.ninf, _ => FP.ninf
  | FP.num _, FP.inf => FP.ninf
  | FP.num _, FP.ninf => FP.inf
  | FP.num x, FP.num y => FP.num (x - y)

/-- Float addition. -/
noncomputable def fadd : FP → FP → FP
  | FP.nan, _ => FP.nan
  | _, FP.nan => FP.nan
  | FP.inf, FP.ninf => FP.nan
  | FP.ninf, FP.inf => FP.nan
  | FP.inf, _ => FP.inf
  | _, FP.inf => FP.inf
  | FP.ninf, _ => FP.ninf
  | _, FP.ninf => FP.ninf
  | FP.num x, FP.num y => FP.num (x + y)

/-- `Math.exp`: `exp(NaN) = NaN`, `exp(Infinity) = Infinity`,
`exp(-Infinity) = 0`. -/
noncomputable def fexp : FP → FP
  | FP.nan => FP.nan
  | FP.inf => FP.inf
  | FP.ninf => FP.num 0
  | FP.num x => FP.num (Real.exp x)

/-- Float division: `Infinity / Infinity`, `0 / 0` and NaN operands give
NaN; a finite value over an infinity gives 0 (signed zero ignored). -/
noncomputable def fdiv : FP → FP → FP
  | FP.nan, _ => FP.nan
  | _, FP.nan => FP.nan
  | FP.inf, FP.inf => FP.nan
  | FP.inf, FP.ninf => FP.nan
  | FP.ninf, FP.inf => FP.nan
  | FP.ninf, FP.ninf => FP.nan
  | FP.inf, FP.num y => if y < 0 then FP.ninf else FP.inf
  | FP.ninf, FP.num y => if y < 0 then FP.inf else FP.ninf
  | FP.num _, FP.inf => FP.num 0
  | FP.num _, FP.ninf => FP.num 0
  | FP.num x, FP.num y =>
    if y = 0 then (if x = 0 then FP.nan else if 0 < x then FP.inf else FP.ninf)
    else FP.num (x / y)

/-- A raw candidate whose log-probability may be a float special value. -/
structure FPRawCandidate where
  token : String
  logProbability : FP

/-- A produced token whose numeric fields may be float special values. -/
structure FPToken where
  token : String
  token_id : Int
  probability : FP
  log_probability : FP
  is_other : Bool

/-- `logprobsToProbs` replayed over the float domain, line for line: the
function has no validation branch, so every input — NaN and Infinity
included — flows through `Math.max`, `Math.exp` and the division and
produces an output list.  `Math.max()` of a spread list folds from
`-Infinity`. -/
noncomputable def logprobsToProbsFP (candidates : List FPRawCandidate) : List FPToken :=
  match candidates with
  | [] => []
  | _ :: _ =>
    let logprobs := candidates.map fun c => c.logProbability
    let m := logprobs.foldl fmax FP.ninf
    let sumExp := (logprobs.map fun lp => fexp (fsub lp m)).foldl fadd (FP.num 0)
    candidates.enum.map fun p =>
      { token := p.2.token
        token_id := (p.1 : Int)
        probability := fdiv (fexp (fsub p.2.logProbability m)) sumExp
        log_probability := p.2.logProbability
        is_other := false }

/- =====================================================================
Helper lemmas.
===================================================================== -/

lemma sum_map_div {α : Type} (l : List α) (f : α → ℝ) (S : ℝ) :
    (l.map fun x => f x / S).sum = (l.map f).sum / S := by
  induction l with
  | nil => simp
  | cons a t ih => simp [ih, add_div]

lemma sum_map_const {α : Type} (l : List α) (f : α → ℝ) (c : ℝ)
    (h : ∀ x ∈ l, f x = c) : (l.map f).sum = l.length * c := by
  induction l with
  | nil => simp
  | cons a t ih =>
    have ha := h a (List.mem_cons_self a t)
    have ht : ∀ x ∈ t, f x = c := fun x hx => h x (List.mem_cons_of_mem a hx)
    simp [ha, ih ht]
    ring

lemma le_foldl_max (l : List ℝ) : ∀ x : ℝ, x ≤ l.foldl max x := by
  induction l with
  | nil => intro x; simp
  | cons a t ih => intro x; exact le_trans (le_max_left x a) (ih (max x a))

lemma mem_le_foldl_max (l : List ℝ) : ∀ x y : ℝ, y ∈ l → y ≤ l.foldl max x := by
  induction l with
  | nil => intro x y h; simp at h
  | cons a t ih =>
    intro x y h
    rcases List.mem_cons.mp h with h | h
    · subst h
      exact le_trans (le_max_right x y) (le_foldl_max t (max x y))
    · exact ih (max x a) y h

lemma foldl_max_mem (l : List ℝ) : ∀ x : ℝ, l.foldl max x ∈ x :: l := by
  induction l with
  | nil => intro x; simp
  | cons a t ih =>
    intro x
    have h := ih (max x a)
    rcases List.mem_cons.mp h with h | h
    · rcases max_choice x a with hc | hc
      · exact List.mem_cons.mpr (Or.inl (by rw [List.foldl_cons, h, hc]))
      · refine List.mem_cons.mpr (Or.inr ?_)
        exact List.mem_cons.mpr (Or.inl (by rw [List.foldl_cons, h, hc]))
    · refine List.mem_cons.mpr (Or.inr ?_)
      exact List.mem_cons.mpr (Or.inr (by rw [List.foldl_cons]; exact h))

lemma maxLogProb_ge {l : List ℝ} {y : ℝ} (h : y ∈ l) : y ≤ maxLogProb l := by
  cases l with
  | nil => simp at h
  | cons a t =>
    rcases List.mem_cons.mp h with h | h
    · subst h; exact le_foldl_max t y
    · exact mem_le_foldl_max t a y h

lemma maxLogProb_mem {l : List ℝ} (h : l ≠ []) : maxLogProb l ∈ l := by
  cases l with
  | nil => exact absurd rfl h
  | cons a t => exact foldl_max_mem t a

/- =====================================================================
Softmax lemmas (`logprobsToProbs`).
===================================================================== -/

lemma softmaxDenom_pos {cs : List RawCandidate} (h : cs ≠ []) :
    0 < softmaxDenom cs := by
  apply List.sum_pos
  · intro x hx
    obtain ⟨lp, _, rfl⟩ := List.mem_map.mp hx
    exact Real.exp_pos _
  · simp only [candLogProbs, ne_eq, List.map_eq_nil_iff]
    exact h

lemma logprobsToProbs_cons (a : RawCandidate) (t : List RawCandidate) :
    logprobsToProbs (a :: t) =
      (a :: t).enum.map fun p =>
        { token := p.2.token
          token_id := (p.1 : Int)
          probability :=
            Real.exp (p.2.logProbability - maxLogProb (candLogProbs (a :: t))) /
              softmaxDenom (a :: t)
          log_probability := p.2.logProbability
          is_other := false } := rfl

lemma logprobsToProbs_probs (cs : List RawCandidate) (h : cs ≠ []) :
    (logprobsToProbs cs).map (fun t => t.probability) =
      cs.map fun c =>
        Real.exp (c.logProbability - maxLogProb (candLogProbs cs)) / softmaxDenom cs := by
  cases cs with
  | nil => exact absurd rfl h
  | cons a t =>
    rw [logprobsToProbs_cons, List.map_map]
    have hcomp :
        ((fun t : Token => t.probability) ∘ fun p : ℕ × RawCandidate =>
          ({ token := p.2.token
             token_id := (p.1 : Int)
             probability :=
               Real.exp (p.2.logProbability - maxLogProb (candLogProbs (a :: t))) /
                 softmaxDenom (a :: t)
             log_probability := p.2.logProbability
             is_other := false } : Token)) =
          (fun c : RawCandidate =>
            Real.exp (c.logProbability - maxLogProb (candLogProbs (a :: t))) /
              softmaxDenom (a :: t)) ∘ Prod.snd := rfl
    rw [hcomp, ← List.map_map, List.enum_map_snd]

lemma logprobsToProbs_length (cs : List RawCandidate) :
    (logprobsToProbs cs).length = cs.length := by
  cases cs with
  | nil => rfl
  | cons a t =>
    rw [logprobsToProbs_cons, List.length_map, List.enum_length]

lemma probSum_logprobsToProbs (cs : List RawCandidate) (h : cs ≠ []) :
    probSum (logprobsToProbs cs) = 1 := by
  unfold probSum
  rw [logprobsToProbs_probs cs h, sum_map_div]
  have hden : ((cs.map fun c =>
      Real.exp (c.logProbability - maxLogProb (candLogProbs cs))).sum) = softmaxDenom cs := by
    unfold softmaxDenom candLogProbs
    rw [List.map_map]
    rfl
  rw [hden, div_self (ne_of_gt (softmaxDenom_pos h))]

/- =====================================================================
`addOtherCategory` lemmas.
===================================================================== -/

lemma remainingProb_of_ge {tokens : List Token} (h : 0.01 ≤ 1 - probSum tokens) :
    remainingProb tokens = 1 - probSum tokens := by
  unfold remainingProb
  have h1 : (0 : ℝ) ≤ 1.0 - probSum tokens := by norm_num at h ⊢; linarith
  rw [max_eq_right h1]
  norm_num

lemma addOtherCategory_append {tokens : List Token}
    (h : 0.01 ≤ 1 - probSum tokens) :
    addOtherCategory tokens 0.01 =
      tokens ++ [otherToken (1 - probSum tokens)] := by
  unfold addOtherCategory
  rw [remainingProb_of_ge h, if_pos h]

lemma addOtherCategory_unchanged {tokens : List Token}
    (h : 1 - probSum tokens < 0.01) :
    addOtherCategory tokens 0.01 = tokens := by
  unfold addOtherCategory
  apply if_neg
  push_neg
  unfold remainingProb
  rcases le_or_lt (1.0 - probSum tokens) 0 with h0 | h0
  · calc max 0 (1.0 - probSum tokens) = 0 := max_eq_left h0
    _ < 0.01 := by norm_num
  · calc max 0 (1.0 - probSum tokens) = 1.0 - probSum tokens := max_eq_right (le_of_lt h0)
    _ < 0.01 := by norm_num at h ⊢; linarith

/- =====================================================================
Merge lemmas (`mergeTokens` and the association-list `Map` model).
===================================================================== -/

lemma mapGet_none_mapSet : ∀ (m : List (String × Token)) (k : String) (w : Token),
    mapGet m k = none → mapSet m k w = m ++ [(k, w)] := by
  intro m
  induction m with
  | nil => intro k w _; rfl
  | cons e rest ih =>
    intro k w h
    simp only [mapGet, List.lookup] at h
    by_cases hk : e.1 = k
    · rw [show (k == e.1) = true from beq_iff_eq.mpr hk.symm] at h
      simp at h
    · rw [show (k == e.1) = false from beq_eq_false_iff_ne.mpr (fun hh => hk hh.symm)] at h
      simp only [mapSet, if_neg hk]
      rw [ih k w h]
      simp

lemma mapGet_some_mapSet_sum : ∀ (m : List (String × Token)) (k : String) (v w : Token),
    mapGet m k = some v →
    probSum ((mapSet m k w).map Prod.snd) + v.probability =
      probSum (m.map Prod.snd) + w.probability := by
  intro m
  induction m with
  | nil => intro k v w h; simp [mapGet, List.lookup] at h
  | cons e rest ih =>
    intro k v w h
    simp only [mapGet, List.lookup] at h
    by_cases hk : e.1 = k
    · rw [show (k == e.1) = true from beq_iff_eq.mpr hk.symm] at h
      simp only [Option.some.injEq] at h
      subst h
      simp only [mapSet, if_pos hk, List.map_cons, probSum, List.sum_cons]
      ring
    · rw [show (k == e.1) = false from beq_eq_false_iff_ne.mpr (fun hh => hk hh.symm)] at h
      simp only [mapSet, if_neg hk, List.map_cons, probSum, List.sum_cons]
      have := ih k v w h
      simp only [probSum] at this
      linarith

lemma mapGet_some_mem : ∀ (m : List (String × Token)) (k : String) (v : Token),
    mapGet m k = some v → v ∈ m.map Prod.snd := by
  intro m
  induction m with
  | nil => intro k v h; simp [mapGet, List.lookup] at h
  | cons e rest ih =>
    intro k v h
    simp only [mapGet, List.lookup] at h
    by_cases hk : e.1 = k
    · rw [show (k == e.1) = true from beq_iff_eq.mpr hk.symm] at h
      simp only [Option.some.injEq] at h
      subst h
      simp
    · rw [show (k == e.1) = false from beq_eq_false_iff_ne.mpr (fun hh => hk hh.symm)] at h
      simp only [List.map_cons, List.mem_cons]
      exact Or.inr (ih k v h)

lemma mapSet_vals_cases : ∀ (m : List (String × Token)) (k : String) (w x : Token),
    x ∈ (mapSet m k w).map Prod.snd → x ∈ m.map Prod.snd ∨ x = w := by
  intro m
  induction m with
  | nil =>
    intro k w x h
    simp [mapSet] at h
    exact Or.inr h
  | cons e rest ih =>
    intro k w x h
    by_cases hk : e.1 = k
    · simp only [mapSet, if_pos hk, List.map_cons, List.mem_cons] at h
      rcases h with h | h
      · exact Or.inr h
      · exact Or.inl (by rw [List.map_cons]; exact List.mem_cons_of_mem _ h)
    · simp only [mapSet, if_neg hk, List.map_cons, List.mem_cons] at h
      rcases h with h | h
      · exact Or.inl (by rw [List.map_cons, h]; exact List.mem_cons_self _ _)
      · rcases ih k w x h with h' | h'
        · exact Or.inl (by rw [List.map_cons]; exact List.mem_cons_of_mem _ h')
        · exact Or.inr h'

lemma mergeStep_eq_none {acc : List (String × Token)} {a : Token}
    (h : mapGet acc (displayKey a.token) = none) :
    mergeStep acc a = mapSet acc (displayKey a.token) a := by
  unfold mergeStep
  rw [h]

lemma mergeStep_eq_some {acc : List (String × Token)} {a v : Token}
    (h : mapGet acc (displayKey a.token) = some v) :
    mergeStep acc a = mapSet acc (displayKey a.token) (mergedEntry v a) := by
  unfold mergeStep
  rw [h]

lemma mergeStep_sum (acc : List (String × Token)) (a : Token) :
    probSum ((mergeStep acc a).map Prod.snd) =
      probSum (acc.map Prod.snd) + a.probability := by
  cases h : mapGet acc (displayKey a.token) with
  | none =>
    rw [mergeStep_eq_none h, mapGet_none_mapSet acc _ _ h]
    simp [probSum]
  | some v =>
    rw [mergeStep_eq_some h]
    have hs := mapGet_some_mapSet_sum acc (displayKey a.token) v (mergedEntry v a) h
    have hm : (mergedEntry v a).probability = v.probability + a.probability := rfl
    rw [hm] at hs
    linarith

lemma mergeFold_sum : ∀ (l : List Token) (acc : List (String × Token)),
    probSum ((l.foldl mergeStep acc).map Prod.snd) =
      probSum (acc.map Prod.snd) + probSum l := by
  intro l
  induction l with
  | nil => intro acc; simp [probSum]
  | cons a t ih =>
    intro acc
    rw [List.foldl_cons, ih, mergeStep_sum]
    simp only [probSum, List.map_cons, List.sum_cons]
    ring

lemma probSum_mergeTokens (l : List Token) :
    probSum (mergeTokens l) = probSum l := by
  unfold mergeTokens
  rw [mergeFold_sum]
  simp [probSum]

lemma mergeFold_forall (P : Token → Prop)
    (hP : ∀ v a, P v → P a → P (mergedEntry v a)) :
    ∀ (l : List Token) (acc : List (String × Token)),
      (∀ v ∈ acc.map Prod.snd, P v) → (∀ a ∈ l, P a) →
      ∀ x ∈ (l.foldl mergeStep acc).map Prod.snd, P x := by
  intro l
  induction l with
  | nil => intro acc hacc _ x hx; exact hacc x hx
  | cons a t ih =>
    intro acc hacc hl x hx
    rw [List.foldl_cons] at hx
    refine ih (mergeStep acc a) ?_ (fun b hb => hl b (List.mem_cons_of_mem a hb)) x hx
    intro v hv
    cases h : mapGet acc (displayKey a.token) with
    | none =>
      rw [mergeStep_eq_none h, mapGet_none_mapSet acc _ _ h] at hv
      simp only [List.map_append, List.mem_append, List.map_cons, List.map_nil,
        List.mem_singleton] at hv
      rcases hv with hv | hv
      · exact hacc v hv
      · rw [hv]; exact hl a (List.mem_cons_self a t)
    | some v₀ =>
      rw [mergeStep_eq_some h] at hv
      rcases mapSet_vals_cases acc _ _ v hv with hv' | hv'
      · exact hacc v hv'
      · rw [hv']
        exact hP v₀ a (hacc v₀ (mapGet_some_mem acc _ v₀ h)) (hl a (List.mem_cons_self a t))

lemma mergeTokens_forall (P : Token → Prop)
    (hP : ∀ v a, P v → P a → P (mergedEntry v a))
    (l : List Token) (hl : ∀ a ∈ l, P a) :
    ∀ x ∈ mergeTokens l, P x := by
  intro x hx
  exact mergeFold_forall P hP l [] (by simp) hl x hx

/- =====================================================================
Selection lemmas (`selectLoop` / `selectWeighted`).
===================================================================== -/

lemma selectLoop_mem : ∀ (l : List Token) (x : ℝ) (a : Token),
    selectLoop x l = some a → a ∈ l := by
  intro l
  induction l with
  | nil => intro x a h; simp [selectLoop] at h
  | cons b t ih =>
    intro x a h
    unfold selectLoop at h
    by_cases hc : x - b.probability ≤ 0
    · rw [if_pos hc] at h
      cases h
      exact List.mem_cons_self b t
    · rw [if_neg hc] at h
      exact List.mem_cons_of_mem b (ih _ a h)

lemma cumProb_zero (a : Token) (t : List Token) :
    cumProb (a :: t) 0 = a.probability := by
  simp [cumProb, probSum]

lemma cumProb_succ (a : Token) (t : List Token) (j : ℕ) :
    cumProb (a :: t) (j + 1) = a.probability + cumProb t j := by
  simp [cumProb, probSum, List.take_succ_cons]

lemma selectLoop_first_cum : ∀ (l : List Token) (x : ℝ) (i : ℕ) (hi : i < l.length),
    (∀ j < i, cumProb l j < x) → x ≤ cumProb l i →
    selectLoop x l = some (l.get ⟨i, hi⟩) := by
  intro l
  induction l with
  | nil => intro x i hi; simp at hi
  | cons a t ih =>
    intro x i hi hlt hle
    cases i with
    | zero =>
      rw [cumProb_zero] at hle
      have hc : x - a.probability ≤ 0 := by linarith
      unfold selectLoop
      rw [if_pos hc]
      rfl
    | succ k =>
      have h0 : cumProb (a :: t) 0 < x := hlt 0 (Nat.succ_pos k)
      rw [cumProb_zero] at h0
      have hc : ¬x - a.probability ≤ 0 := by linarith
      unfold selectLoop
      rw [if_neg hc]
      have hk : k < t.length := by simpa using hi
      have hlt' : ∀ j < k, cumProb t j < x - a.probability := by
        intro j hj
        have := hlt (j + 1) (Nat.succ_lt_succ hj)
        rw [cumProb_succ] at this
        linarith
      have hle' : x - a.probability ≤ cumProb t k := by
        rw [cumProb_succ] at hle
        linarith
      rw [ih (x - a.probability) k hk hlt' hle']
      rfl

lemma selectWeighted_winner_mem (alts : List Token) (r : ℝ) (h : alts ≠ []) :
    ∃ a ∈ alts, selectWeighted alts r = a.token := by
  cases alts with
  | nil => exact absurd rfl h
  | cons a₀ rest =>
    show ∃ a ∈ a₀ :: rest,
      (match selectLoop (r * probSum (a₀ :: rest)) (a₀ :: rest) with
        | some a => a.token
        | none => a₀.token) = a.token
    cases hl : selectLoop (r * probSum (a₀ :: rest)) (a₀ :: rest) with
    | none => exact ⟨a₀, List.mem_cons_self a₀ rest, rfl⟩
    | some a => exact ⟨a, selectLoop_mem _ _ a hl, rfl⟩

lemma selectWeighted_first_cum (alts : List Token) (r : ℝ) (i : ℕ)
    (hi : i < alts.length)
    (hlt : ∀ j < i, cumProb alts j < r * probSum alts)
    (hle : r * probSum alts ≤ cumProb alts i) :
    selectWeighted alts r = (alts.get ⟨i, hi⟩).token := by
  cases alts with
  | nil => simp at hi
  | cons a₀ rest =>
    show (match selectLoop (r * probSum (a₀ :: rest)) (a₀ :: rest) with
        | some a => a.token
        | none => a₀.token) = _
    rw [selectLoop_first_cum (a₀ :: rest) _ i hi hlt hle]

/- =====================================================================
Sorting lemmas.
===================================================================== -/

lemma sortByProbDesc_perm (l : List Token) : (sortByProbDesc l).Perm l :=
  List.mergeSort_perm l _

lemma sortPairsByProbDesc_perm (l : List (ℕ × Token)) :
    (sortPairsByProbDesc l).Perm l :=
  List.mergeSort_perm l _

lemma sortPairs_head_max {alts : List (ℕ × Token)} {s0 : ℕ × Token}
    {rest : List (ℕ × Token)} (hs : sortPairsByProbDesc alts = s0 :: rest) :
    ∀ x ∈ alts, x.2.probability ≤ s0.2.probability := by
  have hp := @List.sorted_mergeSort (ℕ × Token)
    (fun a b => decide (b.2.probability ≤ a.2.probability))
    (fun a b c hab hbc => by
      simp only [decide_eq_true_eq] at hab hbc ⊢
      linarith)
    (fun a b => by
      simp only [Bool.or_eq_true, decide_eq_true_eq]
      exact le_total _ _)
    alts
  rw [show alts.mergeSort (fun a b : ℕ × Token => decide (b.2.probability ≤ a.2.probability)) =
    sortPairsByProbDesc alts from rfl, hs, List.pairwise_cons] at hp
  intro x hx
  have hx' : x ∈ s0 :: rest := by
    rw [← hs]
    exact ((sortPairsByProbDesc_perm alts).mem_iff).mpr hx
  rcases List.mem_cons.mp hx' with h | h
  · rw [h]
  · exact of_decide_eq_true (hp.1 x h)

/- =====================================================================
Arrangement lemmas (`arrangeForCenter`).
===================================================================== -/

lemma altSplit_perm {α : Type} : ∀ xs : List α,
    ((altSplit xs).1 ++ (altSplit xs).2).Perm xs := by
  intro xs
  induction xs with
  | nil => simp [altSplit]
  | cons x t ih =>
    simp only [altSplit, List.cons_append]
    exact ((List.perm_append_comm.trans ih).cons x)

lemma altSplit_lengths {α : Type} : ∀ xs : List α,
    (altSplit xs).1.length = (xs.length + 1) / 2 ∧
      (altSplit xs).2.length = xs.length / 2 := by
  intro xs
  induction xs with
  | nil => simp [altSplit]
  | cons x t ih =>
    simp only [altSplit, List.length_cons]
    exact ⟨by omega, by omega⟩

lemma arrangeLoop_char : ∀ (xs : List (ℕ × Token)) (i : ℕ) (L R : List (ℕ × Token)),
    1 ≤ i →
    arrangeLoop xs i (L, R) =
      if i % 2 = 1 then ((altSplit xs).1.reverse ++ L, R ++ (altSplit xs).2)
      else ((altSplit xs).2.reverse ++ L, R ++ (altSplit xs).1) := by
  intro xs
  induction xs with
  | nil =>
    intro i L R _
    by_cases hp : i % 2 = 1 <;> simp [arrangeLoop, altSplit, hp]
  | cons x t ih =>
    intro i L R hi
    have hne : i ≠ 0 := by omega
    by_cases hp : i % 2 = 1
    · rw [show arrangeLoop (x :: t) i (L, R) =
          (if i = 0 then arrangeLoop t (i + 1) (L, R)
          else if i % 2 = 1 then arrangeLoop t (i + 1) (x :: L, R)
          else arrangeLoop t (i + 1) (L, R ++ [x])) from rfl,
        if_neg hne, if_pos hp, ih (i + 1) (x :: L) R (by omega),
        if_neg (by omega : ¬(i + 1) % 2 = 1), if_pos hp]
      simp [altSplit, List.append_assoc]
    · rw [show arrangeLoop (x :: t) i (L, R) =
          (if i = 0 then arrangeLoop t (i + 1) (L, R)
          else if i % 2 = 1 then arrangeLoop t (i + 1) (x :: L, R)
          else arrangeLoop t (i + 1) (L, R ++ [x])) from rfl,
        if_neg hne, if_neg hp, ih (i + 1) L (R ++ [x]) (by omega),
        if_pos (by omega : (i + 1) % 2 = 1), if_neg hp]
      simp [altSplit, List.append_assoc]

lemma arrangeForCenter_eq {alts : List (ℕ × Token)} (h : 2 ≤ alts.length)
    {s0 : ℕ × Token} {rest : List (ℕ × Token)}
    (hs : sortPairsByProbDesc alts = s0 :: rest) :
    arrangeForCenter alts =
      (altSplit rest).1.reverse ++ s0 :: (altSplit rest).2 := by
  unfold arrangeForCenter
  rw [if_neg (by omega : ¬alts.length ≤ 1), hs]
  have h0 : arrangeLoop (s0 :: rest) 0 ([], []) = arrangeLoop rest 1 ([], []) := by
    rw [show arrangeLoop (s0 :: rest) 0 ([], []) =
        (if (0 : ℕ) = 0 then arrangeLoop rest 1 ([], [])
        else if (0 : ℕ) % 2 = 1 then arrangeLoop rest 1 (s0 :: [], [])
        else arrangeLoop rest 1 ([], [] ++ [s0])) from rfl]
    simp
  show (arrangeLoop (s0 :: rest) 0 ([], [])).1 ++ (s0 :: rest).take 1 ++
      (arrangeLoop (s0 :: rest) 0 ([], [])).2 = _
  rw [h0, arrangeLoop_char rest 1 [] [] le_rfl, if_pos (by norm_num)]
  simp

lemma arrangeForCenter_perm (alts : List (ℕ × Token)) :
    (arrangeForCenter alts).Perm alts := by
  by_cases h : alts.length ≤ 1
  · unfold arrangeForCenter
    rw [if_pos h]
  · have h2 : 2 ≤ alts.length := by omega
    have hlen : (sortPairsByProbDesc alts).length = alts.length :=
      (sortPairsByProbDesc_perm alts).length_eq
    cases hs : sortPairsByProbDesc alts with
    | nil => rw [hs] at hlen; simp at hlen; omega
    | cons s0 rest =>
      rw [arrangeForCenter_eq h2 hs]
      exact List.perm_middle.trans
        (((((List.reverse_perm _).append_right _).cons s0).trans
          ((altSplit_perm rest).cons s0)).trans
          (hs ▸ sortPairsByProbDesc_perm alts))

/- =====================================================================
Game-pipeline lemmas (filter, merge, sort, split).
===================================================================== -/

lemma filterValid_spec {alts : List Token} :
    ∀ x ∈ filterValid alts, x ∈ alts ∧ x.is_other = false ∧ isValidToken x.token = true := by
  intro x hx
  rw [filterValid, List.mem_filter] at hx
  obtain ⟨hm, hb⟩ := hx
  rw [Bool.and_eq_true, Bool.not_eq_true'] at hb
  exact ⟨hm, hb.1, hb.2⟩

lemma mergedEntry_token (v a : Token) :
    (mergedEntry v a).token = if startsWithSpace a.token then a.token else v.token := rfl

lemma mergedEntry_is_other (v a : Token) :
    (mergedEntry v a).is_other = v.is_other := rfl

lemma mergedEntry_probability (v a : Token) :
    (mergedEntry v a).probability = v.probability + a.probability := rfl

lemma goodToken_mergedEntry (alts : List Token) (v a : Token)
    (hv : goodToken alts v) (ha : goodToken alts a) :
    goodToken alts (mergedEntry v a) := by
  obtain ⟨hvo, hvv, hvw⟩ := hv
  obtain ⟨hao, hav, haw⟩ := ha
  refine ⟨by rw [mergedEntry_is_other]; exact hvo, ?_, ?_⟩ <;> rw [mergedEntry_token]
  · by_cases hsp : startsWithSpace a.token
    · rw [if_pos hsp]; exact hav
    · rw [if_neg hsp]; exact hvv
  · by_cases hsp : startsWithSpace a.token
    · rw [if_pos hsp]; exact haw
    · rw [if_neg hsp]; exact hvw

lemma mergeTokens_good (alts : List Token) :
    ∀ x ∈ mergeTokens (filterValid alts), goodToken alts x := by
  refine mergeTokens_forall _ (goodToken_mergedEntry alts) _ ?_
  intro a ha
  obtain ⟨hm, ho, hv⟩ := filterValid_spec a ha
  exact ⟨ho, hv, ⟨a, hm, ho, hv, rfl⟩⟩

lemma mergeTokens_goodNN (alts : List Token) (hnn : ∀ a ∈ alts, 0 ≤ a.probability) :
    ∀ x ∈ mergeTokens (filterValid alts), goodToken alts x ∧ 0 ≤ x.probability := by
  refine mergeTokens_forall _ ?_ _ ?_
  · intro v a hv ha
    refine ⟨goodToken_mergedEntry alts v a hv.1 ha.1, ?_⟩
    rw [mergedEntry_probability]
    linarith [hv.2, ha.2]
  · intro a ha
    obtain ⟨hm, ho, hv⟩ := filterValid_spec a ha
    exact ⟨⟨ho, hv, ⟨a, hm, ho, hv, rfl⟩⟩, hnn a hm⟩

lemma probSum_sortByProbDesc (l : List Token) :
    probSum (sortByProbDesc l) = probSum l :=
  ((sortByProbDesc_perm l).map _).sum_eq

lemma fms_good (alts : List Token) :
    ∀ x ∈ filteredMergedSorted alts, goodToken alts x := by
  intro x hx
  exact mergeTokens_good alts x ((sortByProbDesc_perm _).mem_iff.mp hx)

lemma fms_goodNN (alts : List Token) (hnn : ∀ a ∈ alts, 0 ≤ a.probability) :
    ∀ x ∈ filteredMergedSorted alts, goodToken alts x ∧ 0 ≤ x.probability := by
  intro x hx
  exact mergeTokens_goodNN alts hnn x ((sortByProbDesc_perm _).mem_iff.mp hx)

lemma probSum_fms (alts : List Token) :
    probSum (filteredMergedSorted alts) = probSum (filterValid alts) := by
  unfold filteredMergedSorted
  rw [probSum_sortByProbDesc, probSum_mergeTokens]

lemma probSum_filter_not (p : Token → Bool) (l : List Token) :
    probSum (l.filter p) + probSum (l.filter fun a => !(p a)) = probSum l := by
  induction l with
  | nil => simp [probSum]
  | cons a t ih =>
    cases h : p a <;> (simp only [List.filter_cons, h]; simp [probSum] at ih ⊢; linarith)

lemma probSum_filter_split (alts : List Token) :
    probSum (filterValid alts) +
      probSum (alts.filter fun a => !(!a.is_other && isValidToken a.token)) =
      probSum alts :=
  probSum_filter_not (fun a => !a.is_other && isValidToken a.token) alts

/- =====================================================================
`DiceRoll` split lemmas.
===================================================================== -/

lemma diceSplitStep_cases (mo : List Token × List Token) (a : Token) :
    diceSplitStep mo a = (mo.1 ++ [a], mo.2) ∨ diceSplitStep mo a = (mo.1, mo.2 ++ [a]) := by
  unfold diceSplitStep
  split_ifs <;> [exact Or.inl rfl; exact Or.inr rfl]

lemma diceSplit_fold_good (C : Token → Prop) :
    ∀ (l : List Token) (mo : List Token × List Token),
      (∀ x ∈ mo.1, C x) → (∀ x ∈ mo.2, C x) → (∀ x ∈ l, C x) →
      (∀ x ∈ (l.foldl diceSplitStep mo).1, C x) ∧
        (∀ x ∈ (l.foldl diceSplitStep mo).2, C x) := by
  intro l
  induction l with
  | nil => intro mo h1 h2 _; exact ⟨h1, h2⟩
  | cons a t ih =>
    intro mo h1 h2 hl
    rw [List.foldl_cons]
    have hCa : C a := hl a (List.mem_cons_self a t)
    rcases diceSplitStep_cases mo a with hc | hc <;> rw [hc]
    · refine ih _ ?_ h2 (fun x hx => hl x (List.mem_cons_of_mem a hx))
      intro x hx
      rcases List.mem_append.mp hx with hx | hx
      · exact h1 x hx
      · rw [List.mem_singleton.mp hx]; exact hCa
    · refine ih _ h1 ?_ (fun x hx => hl x (List.mem_cons_of_mem a hx))
      intro x hx
      rcases List.mem_append.mp hx with hx | hx
      · exact h2 x hx
      · rw [List.mem_singleton.mp hx]; exact hCa

lemma diceSplit_good (sorted : List Token) (C : Token → Prop)
    (hl : ∀ x ∈ sorted, C x) :
    (∀ x ∈ (diceSplit sorted).1, C x) ∧ (∀ x ∈ (diceSplit sorted).2, C x) := by
  unfold diceSplit
  exact diceSplit_fold_good C sorted ([], []) (by simp) (by simp) hl

/- =====================================================================
`Plinko` split and bin lemmas.
===================================================================== -/

lemma plinkoSplitStep_cases (mo : List (ℕ × Token) × List Token) (p : ℕ × Token) :
    plinkoSplitStep mo p = (mo.1 ++ [p], mo.2) ∨
      plinkoSplitStep mo p = (mo.1, mo.2 ++ [p.2]) := by
  unfold plinkoSplitStep
  split_ifs <;> [exact Or.inl rfl; exact Or.inr rfl]

lemma plinkoSplit_fold_good (C : Token → Prop) :
    ∀ (l : List (ℕ × Token)) (mo : List (ℕ × Token) × List Token),
      (∀ q ∈ mo.1, C q.2) → (∀ x ∈ mo.2, C x) → (∀ q ∈ l, C q.2) →
      (∀ q ∈ (l.foldl plinkoSplitStep mo).1, C q.2) ∧
        (∀ x ∈ (l.foldl plinkoSplitStep mo).2, C x) := by
  intro l
  induction l with
  | nil => intro mo h1 h2 _; exact ⟨h1, h2⟩
  | cons p t ih =>
    intro mo h1 h2 hl
    rw [List.foldl_cons]
    have hCp : C p.2 := hl p (List.mem_cons_self p t)
    rcases plinkoSplitStep_cases mo p with hc | hc <;> rw [hc]
    · refine ih _ ?_ h2 (fun q hq => hl q (List.mem_cons_of_mem p hq))
      intro q hq
      rcases List.mem_append.mp hq with hq | hq
      · exact h1 q hq
      · rw [List.mem_singleton.mp hq]; exact hCp
    · refine ih _ h1 ?_ (fun q hq => hl q (List.mem_cons_of_mem p hq))
      intro x hx
      rcases List.mem_append.mp hx with hx | hx
      · exact h2 x hx
      · rw [List.mem_singleton.mp hx]; exact hCp

lemma plinkoSplit_fold_sum :
    ∀ (l : List (ℕ × Token)) (mo : List (ℕ × Token) × List Token),
      pairProbSum (l.foldl plinkoSplitStep mo).1 +
          probSum (l.foldl plinkoSplitStep mo).2 =
        pairProbSum mo.1 + probSum mo.2 + pairProbSum l := by
  intro l
  induction l with
  | nil => intro mo; simp [pairProbSum]
  | cons p t ih =>
    intro mo
    rw [List.foldl_cons]
    rcases plinkoSplitStep_cases mo p with hc | hc <;> rw [hc, ih]
    · simp [pairProbSum, probSum]
      ring
    · simp [pairProbSum, probSum]
      ring

lemma enum_pairProbSum (l : List Token) : pairProbSum l.enum = probSum l := by
  unfold pairProbSum probSum
  have hcomp : (fun q : ℕ × Token => q.2.probability) =
      (fun t : Token => t.probability) ∘ Prod.snd := rfl
  rw [hcomp, ← List.map_map, List.enum_map_snd]

lemma plinkoSplit_sum (sorted : List Token) :
    pairProbSum (plinkoSplit sorted).1 + probSum (plinkoSplit sorted).2 =
      probSum sorted := by
  unfold plinkoSplit
  rw [plinkoSplit_fold_sum, enum_pairProbSum]
  simp [pairProbSum, probSum]

lemma plinkoSplit_good (sorted : List Token) (C : Token → Prop)
    (hl : ∀ x ∈ sorted, C x) :
    (∀ q ∈ (plinkoSplit sorted).1, C q.2) ∧ (∀ x ∈ (plinkoSplit sorted).2, C x) := by
  unfold plinkoSplit
  refine plinkoSplit_fold_good C sorted.enum ([], []) (by simp) (by simp) ?_
  intro q hq
  exact hl q.2 (List.snd_mem_of_mem_enum hq)

lemma plinkoMainBins_fold_fields (tp : ℝ) :
    ∀ (ca : List (ℕ × Token)) (acc : List BinData × ℝ),
      ((ca.foldl (plinkoBinStep tp) acc).1).map
          (fun b => (b.token, b.probability, b.isOther, b.otherTokens)) =
        acc.1.map (fun b => (b.token, b.probability, b.isOther, b.otherTokens)) ++
          ca.map (fun q => (q.2.token, q.2.probability, false, ([] : List Token))) := by
  intro ca
  induction ca with
  | nil => intro acc; simp
  | cons p t ih =>
    intro acc
    rw [List.foldl_cons, ih]
    simp [plinkoBinStep]

lemma plinkoMainBins_fields (ca : List (ℕ × Token)) (tp : ℝ) :
    ((plinkoMainBins ca tp).1).map
        (fun b => (b.token, b.probability, b.isOther, b.otherTokens)) =
      ca.map fun q => (q.2.token, q.2.probability, false, ([] : List Token)) := by
  unfold plinkoMainBins
  rw [plinkoMainBins_fold_fields]
  simp

lemma plinkoMainBins_mem (ca : List (ℕ × Token)) (tp : ℝ) {b : BinData}
    (hb : b ∈ (plinkoMainBins ca tp).1) :
    ∃ q ∈ ca, b.token = q.2.token ∧ b.probability = q.2.probability ∧
      b.isOther = false ∧ b.otherTokens = [] := by
  have hmem : (b.token, b.probability, b.isOther, b.otherTokens) ∈
      ca.map fun q => (q.2.token, q.2.probability, false, ([] : List Token)) := by
    rw [← plinkoMainBins_fields ca tp]
    exact List.mem_map_of_mem _ hb
  obtain ⟨q, hq, hqe⟩ := List.mem_map.mp hmem
  simp only [Prod.mk.injEq] at hqe
  exact ⟨q, hq, hqe.1.symm, hqe.2.1.symm, hqe.2.2.1.symm, hqe.2.2.2.symm⟩

lemma plinkoMainBins_probs (ca : List (ℕ × Token)) (tp : ℝ) :
    ((plinkoMainBins ca tp).1).map (fun b => b.probability) =
      ca.map fun q => q.2.probability := by
  have h := congrArg (List.map fun t : String × ℝ × Bool × List Token => t.2.1)
    (plinkoMainBins_fields ca tp)
  simpa [List.map_map, Function.comp] using h

/- =====================================================================
Further helper lemmas for the claim theorems.
===================================================================== -/

lemma getD_mem_of_lt : ∀ (l : List Token) (i : ℕ), i < l.length → l.getD i default ∈ l := by
  intro l
  induction l with
  | nil => intro i h; simp at h
  | cons a t ih =>
    intro i h
    cases i with
    | zero => exact List.mem_cons_self a t
    | succ k =>
      have : t.getD k default ∈ t := ih k (by simpa using h)
      exact List.mem_cons_of_mem a (by simpa using this)

lemma pool_getD_mem {pool : List Token} (h : pool ≠ []) (j : ℕ) :
    pool.getD (j % pool.length) default ∈ pool := by
  apply getD_mem_of_lt
  exact Nat.mod_lt j (List.length_pos.mpr h)

lemma list_map_congr_inv {α : Type} (l : List α) (f g : α → ℝ)
    (h : ∀ x ∈ l, f x = g x) : l.map f = l.map g := by
  induction l with
  | nil => rfl
  | cons a t ih =>
    simp only [List.map_cons]
    rw [h a (List.mem_cons_self a t), ih fun x hx => h x (List.mem_cons_of_mem a hx)]

lemma diceSelect_eq_some {faces pool : List Token} {r : ℝ} {j : ℕ} {item : Token}
    (h : selectLoop (r * probSum (diceAllItems faces pool))
      (diceAllItems faces pool) = some item) :
    diceSelectWeighted faces pool r j =
      if item.token = "Other" ∧ pool.isEmpty = false then
        (pool.getD (j % pool.length) default).token
      else item.token := by
  unfold diceSelectWeighted
  rw [h]

lemma diceSelect_eq_none {faces pool : List Token} {r : ℝ} {j : ℕ}
    (h : selectLoop (r * probSum (diceAllItems faces pool))
      (diceAllItems faces pool) = none) :
    diceSelectWeighted faces pool r j =
      ((diceAllItems faces pool).getD 0 default).token := by
  unfold diceSelectWeighted
  rw [h]

lemma diceSelectWeighted_good (alts faces pool : List Token) (r : ℝ) (j : ℕ)
    (hfaces : ∀ x ∈ faces, goodToken alts x)
    (hpool : ∀ x ∈ pool, goodToken alts x)
    (hpoolnn : ∀ x ∈ pool, 0 ≤ x.probability)
    (hr : r ≤ 1) :
    diceSelectWeighted faces pool r j = "" ∨
      ∃ a ∈ alts, a.is_other = false ∧ isValidToken a.token = true ∧
        diceSelectWeighted faces pool r j = a.token := by
  have hpoolpick : pool ≠ [] →
      ∃ a ∈ alts, a.is_other = false ∧ isValidToken a.token = true ∧
        (pool.getD (j % pool.length) default).token = a.token := by
    intro hne
    obtain ⟨ho, hv, y, hy, hyo, hyv, hye⟩ := hpool _ (pool_getD_mem hne j)
    exact ⟨y, hy, hyo, hyv, hye⟩
  cases hloop : selectLoop (r * probSum (diceAllItems faces pool))
      (diceAllItems faces pool) with
  | some item =>
    rw [diceSelect_eq_some hloop]
    by_cases hcond : item.token = "Other" ∧ pool.isEmpty = false
    · rw [if_pos hcond]
      right
      apply hpoolpick
      intro hpe
      rw [hpe] at hcond
      simp at hcond
    · rw [if_neg hcond]
      have hitem := selectLoop_mem _ _ _ hloop
      rcases List.mem_append.mp hitem with hf | hagg
      · right
        obtain ⟨ho, hv, y, hy, hyo, hyv, hye⟩ := hfaces item (List.take_subset 6 faces hf)
        exact ⟨y, hy, hyo, hyv, hye⟩
      · exfalso
        by_cases hpe : pool.isEmpty
        · rw [if_pos hpe] at hagg
          simp at hagg
        · rw [if_neg hpe] at hagg
          apply hcond
          rw [List.mem_singleton.mp hagg]
          exact ⟨rfl, Bool.eq_false_iff.mpr hpe⟩
  | none =>
    rw [diceSelect_eq_none hloop]
    cases hf : faces.take 6 with
    | cons f0 ft =>
      have hget : (diceAllItems faces pool).getD 0 default = f0 := by
        unfold diceAllItems
        rw [hf]
        rfl
      rw [hget]
      right
      have hf0 : f0 ∈ faces :=
        List.take_subset 6 faces (hf ▸ List.mem_cons_self f0 ft)
      obtain ⟨ho, hv, y, hy, hyo, hyv, hye⟩ := hfaces f0 hf0
      exact ⟨y, hy, hyo, hyv, hye⟩
    | nil =>
      by_cases hpe : pool.isEmpty
      · left
        have hA : diceAllItems faces pool = [] := by
          unfold diceAllItems
          rw [hf, if_pos hpe]
          rfl
        rw [hA]
        rfl
      · exfalso
        have hA : diceAllItems faces pool = [diceOtherItem pool] := by
          unfold diceAllItems
          rw [hf, if_neg hpe]
          rfl
        rw [hA] at hloop
        have hs : (0 : ℝ) ≤ probSum pool := by
          apply List.sum_nonneg
          intro x hx
          obtain ⟨t, ht, rfl⟩ := List.mem_map.mp hx
          exact hpoolnn t ht
        have hcnd : r * probSum [diceOtherItem pool] -
            (diceOtherItem pool).probability ≤ 0 := by
          have h1 : probSum [diceOtherItem pool] = probSum pool := by
            simp [probSum, diceOtherItem]
          have h2 : (diceOtherItem pool).probability = probSum pool := rfl
          rw [h1, h2]
          nlinarith
        rw [show selectLoop (r * probSum [diceOtherItem pool]) [diceOtherItem pool] =
            some (diceOtherItem pool) from by unfold selectLoop; rw [if_pos hcnd]] at hloop
        exact Option.some_ne_none _ hloop

lemma plinkoReported_good (alts : List Token) (bin : BinData) (j : ℕ)
    (hbin : bin ∈ plinkoBins alts) :
    ∃ a ∈ alts, a.is_other = false ∧ isValidToken a.token = true ∧
      plinkoReportedToken bin j = a.token := by
  have hsplit := plinkoSplit_good (filteredMergedSorted alts) (goodToken alts)
    (fms_good alts)
  have hmainCase : ∀ tp, bin ∈ (plinkoMainBins
      (arrangeForCenter (plinkoSplit (filteredMergedSorted alts)).1) tp).1 →
      ∃ a ∈ alts, a.is_other = false ∧ isValidToken a.token = true ∧
        plinkoReportedToken bin j = a.token := by
    intro tp hmain
    obtain ⟨q, hq, htok, _, hisO, _⟩ := plinkoMainBins_mem _ _ hmain
    have hq' : q ∈ (plinkoSplit (filteredMergedSorted alts)).1 :=
      (arrangeForCenter_perm _).mem_iff.mp hq
    obtain ⟨ho, hv, y, hy, hyo, hyv, hye⟩ := hsplit.1 q hq'
    refine ⟨y, hy, hyo, hyv, ?_⟩
    unfold plinkoReportedToken
    rw [if_neg fun hcontra => by rw [hisO] at hcontra; exact Bool.false_ne_true hcontra.1,
      htok, hye]
  unfold plinkoBins plinkoBinsAux at hbin
  by_cases hg : (plinkoSplit (filteredMergedSorted alts)).2.isEmpty = false ∧
      0 < probSum (plinkoSplit (filteredMergedSorted alts)).2
  · rw [if_pos hg] at hbin
    rcases List.mem_append.mp hbin with hmain | hother
    · exact hmainCase _ hmain
    · have hbe := List.mem_singleton.mp hother
      have hne : (plinkoSplit (filteredMergedSorted alts)).2 ≠ [] := by
        intro h0
        rw [h0] at hg
        simp at hg
      obtain ⟨ho, hv, y, hy, hyo, hyv, hye⟩ :=
        hsplit.2 _ (pool_getD_mem hne j)
      refine ⟨y, hy, hyo, hyv, ?_⟩
      rw [hbe]
      unfold plinkoReportedToken plinkoOtherBin
      rw [if_pos ⟨rfl, by simpa using hne⟩]
      exact hye
  · rw [if_neg hg] at hbin
    exact hmainCase _ hbin

lemma plinkoBins_mass (alts : List Token) (hnn : ∀ a ∈ alts, 0 ≤ a.probability) :
    ((plinkoBins alts).map fun b => b.probability).sum =
      probSum (filterValid alts) := by
  have hsum : pairProbSum (plinkoSplit (filteredMergedSorted alts)).1 +
      probSum (plinkoSplit (filteredMergedSorted alts)).2 =
      probSum (filteredMergedSorted alts) :=
    plinkoSplit_sum (filteredMergedSorted alts)
  have hmain : ∀ tp, (((plinkoMainBins
      (arrangeForCenter (plinkoSplit (filteredMergedSorted alts)).1) tp).1).map
        (fun b => b.probability)).sum =
      pairProbSum (plinkoSplit (filteredMergedSorted alts)).1 := by
    intro tp
    rw [plinkoMainBins_probs]
    exact ((arrangeForCenter_perm _).map fun q : ℕ × Token => q.2.probability).sum_eq
  have hopb : ∀ (ot : List Token) (tp st : ℝ),
      (plinkoOtherBin ot tp st).probability = probSum ot := fun _ _ _ => rfl
  unfold plinkoBins plinkoBinsAux
  by_cases hg : (plinkoSplit (filteredMergedSorted alts)).2.isEmpty = false ∧
      0 < probSum (plinkoSplit (filteredMergedSorted alts)).2
  · rw [if_pos hg]
    rw [List.map_append, List.sum_append, hmain]
    simp only [List.map_cons, List.map_nil, List.sum_cons, List.sum_nil, add_zero]
    rw [hopb, ← probSum_fms alts]
    linarith
  · rw [if_neg hg, hmain]
    have hnn2 : ∀ x ∈ (plinkoSplit (filteredMergedSorted alts)).2, 0 ≤ x.probability := by
      intro x hx
      exact ((plinkoSplit_good (filteredMergedSorted alts) _
        (fms_goodNN alts hnn)).2 x hx).2
    have hs0 : probSum (plinkoSplit (filteredMergedSorted alts)).2 = 0 := by
      rcases not_and_or.mp hg with hg1 | hg2
      · have : (plinkoSplit (filteredMergedSorted alts)).2.isEmpty = true := by
          revert hg1
          cases (plinkoSplit (filteredMergedSorted alts)).2.isEmpty <;> simp
        rw [List.isEmpty_iff] at this
        rw [this]
        simp [probSum]
      · have hge : (0 : ℝ) ≤ probSum (plinkoSplit (filteredMergedSorted alts)).2 := by
          apply List.sum_nonneg
          intro x hx
          obtain ⟨t, ht, rfl⟩ := List.mem_map.mp hx
          exact hnn2 t ht
        push_neg at hg2
        linarith
    rw [← probSum_fms alts]
    linarith

/- =====================================================================
The claims.
===================================================================== -/

/-- C1: for every non-empty candidate list (log-probabilities are real
numbers here, so finiteness is built into the model), `logprobsToProbs`
returns one probability per candidate computed by max-shift softmax: `m =
maxLogProb` is an upper bound of, and attained by, the log-probabilities;
the partition sum is strictly positive (so no division by zero occurs,
also when all log-probabilities are equal); each probability is
`exp(lp_i - m) / Σ_j exp(lp_j - m)`; the probabilities sum to exactly 1
(hence within 1e-6); and equal log-probabilities yield the uniform
distribution `1/n`. -/
theorem C1_softmax_normalization (cs : List RawCandidate) (h : cs ≠ []) :
    (logprobsToProbs cs).length = cs.length ∧
    (∀ lp ∈ candLogProbs cs, lp ≤ maxLogProb (candLogProbs cs)) ∧
    maxLogProb (candLogProbs cs) ∈ candLogProbs cs ∧
    0 < softmaxDenom cs ∧
    (logprobsToProbs cs).map (fun t => t.probability) =
      cs.map (fun c =>
        Real.exp (c.logProbability - maxLogProb (candLogProbs cs)) / softmaxDenom cs) ∧
    probSum (logprobsToProbs cs) = 1 ∧
    (∀ a : ℝ, (∀ c ∈ cs, c.logProbability = a) →
      (logprobsToProbs cs).map (fun t => t.probability) =
        cs.map fun _ => (cs.length : ℝ)⁻¹) := by
  have hne : candLogProbs cs ≠ [] := by
    simp only [candLogProbs, ne_eq, List.map_eq_nil_iff]
    exact h
  refine ⟨logprobsToProbs_length cs, fun lp hlp => maxLogProb_ge hlp, maxLogProb_mem hne,
    softmaxDenom_pos h, logprobsToProbs_probs cs h, probSum_logprobsToProbs cs h, ?_⟩
  intro a ha
  have hm : maxLogProb (candLogProbs cs) = a := by
    obtain ⟨c, hc, hce⟩ := List.mem_map.mp (maxLogProb_mem hne)
    unfold candLogProbs
    rw [← hce, ha c hc]
  have hS : softmaxDenom cs = (cs.length : ℝ) := by
    unfold softmaxDenom
    rw [sum_map_const (candLogProbs cs) _ 1]
    · simp [candLogProbs]
    · intro lp hlp
      obtain ⟨c, hc, hce⟩ := List.mem_map.mp hlp
      rw [← hce, ha c hc, hm, sub_self, Real.exp_zero]
  rw [logprobsToProbs_probs cs h]
  apply list_map_congr_inv
  intro c hc
  rw [ha c hc, hm, sub_self, Real.exp_zero, hS, one_div]

/-- Witness for C1: the two-candidate list with log-probabilities −1 and
−2 is non-empty, and its softmax-normalized probabilities sum to 1. -/
theorem C1_softmax_normalization_witness :
    probSum (logprobsToProbs [⟨"a", -1⟩, ⟨"b", -2⟩]) = 1 :=
  (C1_softmax_normalization [⟨"a", -1⟩, ⟨"b", -2⟩]
    (List.cons_ne_nil _ _)).2.2.2.2.2.1

/-- C3: for every token list, `addOtherCategory` (as composed inside
`getNextToken` with threshold 0.01) appends exactly one synthetic
`⟨"<OTHER>", -1, gap, log gap, is_other := true⟩` outcome when the gap
`1 - Σ probability` is at least 0.01 — and then the output mass is exactly
1 — and returns the list unchanged otherwise; composed after the softmax
normalization the gap is zero, so the composition keeps the normalized
list with total mass 1: every unit of probability mass entering the step
is accounted for. -/
theorem C3_other_synthesis (tokens : List Token) :
    ((0.01 ≤ 1 - probSum tokens →
      addOtherCategory tokens 0.01 =
        tokens ++ [{ token := "<OTHER>"
                     token_id := -1
                     probability := 1 - probSum tokens
                     log_probability := Real.log (1 - probSum tokens)
                     is_other := true }] ∧
      probSum (addOtherCategory tokens 0.01) = 1) ∧
    (1 - probSum tokens < 0.01 → addOtherCategory tokens 0.01 = tokens)) ∧
    ∀ cs : List RawCandidate, cs ≠ [] →
      getNextTokenAlternatives cs = logprobsToProbs cs ∧
      probSum (getNextTokenAlternatives cs) = 1 := by
  constructor
  · constructor
    · intro hgap
      have happ := addOtherCategory_append hgap
      constructor
      · exact happ
      · rw [happ]
        simp [probSum, otherToken]
    · intro hgap
      exact addOtherCategory_unchanged hgap
  · intro cs hcs
    have h1 : probSum (logprobsToProbs cs) = 1 := probSum_logprobsToProbs cs hcs
    have hun : getNextTokenAlternatives cs = logprobsToProbs cs := by
      unfold getNextTokenAlternatives
      apply addOtherCategory_unchanged
      rw [h1]
      norm_num
    exact ⟨hun, by rw [hun, h1]⟩

/-- C7: merging conserves probability mass exactly (hence within 1e-6):
the probabilities of the merged outcomes sum to the probabilities of the
input outcomes, for every input list. -/
theorem C7_merge_mass_conservation (l : List Token) :
    probSum (mergeTokens l) = probSum l ∧
      |probSum (mergeTokens l) - probSum l| ≤ 1e-6 := by
  refine ⟨probSum_mergeTokens l, ?_⟩
  rw [probSum_mergeTokens l, sub_self, abs_zero]
  norm_num

/-- C4: merging two outcomes whose texts share a display key (equal after
trimming and lower-casing) yields a single outcome whose probability is the
sum of the two, whose log-probability is the log-sum-exp of the two, and
whose display text prefers the variant with a leading space; concretely,
merging `{" Mat", p = 0.10}` and `{"mat", p = 0.05}` yields one outcome
with display text `" Mat"` and probability 0.15. -/
theorem C4_merge_rule :
    (∀ v a : Token, displayKey v.token = displayKey a.token →
      ∃ c : Token, mergeTokens [v, a] = [c] ∧
        c.probability = v.probability + a.probability ∧
        c.log_probability =
          Real.log (Real.exp v.log_probability + Real.exp a.log_probability) ∧
        (startsWithSpace v.token = true → startsWithSpace a.token = false →
          c.token = v.token) ∧
        (startsWithSpace a.token = true → c.token = a.token)) ∧
    ∃ c : Token,
      mergeTokens [⟨" Mat", 0, 0.10, 0, false⟩, ⟨"mat", 1, 0.05, 0, false⟩] = [c] ∧
        c.token = " Mat" ∧ c.probability = 0.15 := by
  have hgen : ∀ v a : Token, displayKey v.token = displayKey a.token →
      mergeTokens [v, a] = [mergedEntry v a] := by
    intro v a hkey
    have hget : mapGet [(displayKey v.token, v)] (displayKey a.token) = some v := by
      simp [mapGet, List.lookup, ← hkey]
    have hstep1 : mergeStep [] v = [(displayKey v.token, v)] := rfl
    have hstep2 : mergeStep [(displayKey v.token, v)] a =
        [(displayKey a.token, mergedEntry v a)] := by
      rw [@mergeStep_eq_some [(displayKey v.token, v)] a v hget]
      simp [mapSet, hkey]
    unfold mergeTokens
    rw [List.foldl_cons, List.foldl_cons, List.foldl_nil, hstep1, hstep2]
    rfl
  constructor
  · intro v a hkey
    refine ⟨mergedEntry v a, hgen v a hkey, rfl, rfl, ?_, ?_⟩
    · intro _ hb
      rw [mergedEntry_token, if_neg (by rw [hb]; exact Bool.false_ne_true)]
    · intro hb
      rw [mergedEntry_token, if_pos hb]
  · have hkey : displayKey (" Mat" : String) = displayKey ("mat" : String) := by decide
    refine ⟨mergedEntry ⟨" Mat", 0, 0.10, 0, false⟩ ⟨"mat", 1, 0.05, 0, false⟩,
      hgen _ _ hkey, ?_, ?_⟩
    · rw [mergedEntry_token, if_neg ?_]
      intro hsp
      exact Bool.false_ne_true ((by decide : startsWithSpace "mat" = false) ▸ hsp)
    · rw [mergedEntry_probability]
      norm_num

/-- C2: weighted selection follows the canonical cumulative-sum rule — the
winner is the first outcome whose inclusive cumulative probability reaches
the draw scaled by the total probability (the boundary itself included,
matching the source's `random <= 0` test) — and in particular, on the
two-outcome list `[0.3, 0.7]`, draws 0.0 and 0.299 select the first
outcome and draws 0.301 and 0.999 select the second. -/
theorem C2_selection_cumulative_rule :
    (∀ (alts : List Token) (r : ℝ) (i : ℕ) (hi : i < alts.length),
      (∀ j < i, cumProb alts j < r * probSum alts) →
      r * probSum alts ≤ cumProb alts i →
      selectWeighted alts r = (alts.get ⟨i, hi⟩).token) ∧
    selectWeighted [⟨"A", 0, 0.3, 0, false⟩, ⟨"B", 1, 0.7, 0, false⟩] 0 = "A" ∧
    selectWeighted [⟨"A", 0, 0.3, 0, false⟩, ⟨"B", 1, 0.7, 0, false⟩] 0.299 = "A" ∧
    selectWeighted [⟨"A", 0, 0.3, 0, false⟩, ⟨"B", 1, 0.7, 0, false⟩] 0.301 = "B" ∧
    selectWeighted [⟨"A", 0, 0.3, 0, false⟩, ⟨"B", 1, 0.7, 0, false⟩] 0.999 = "B" := by
  refine ⟨selectWeighted_first_cum, ?_, ?_, ?_, ?_⟩ <;>
    norm_num [selectWeighted, selectLoop, probSum]

/-- Counterexample for C5: on the empty list the source's `selectWeighted`
returns the empty string — it does not fail — and when the cumulative loop
selects no outcome (possible at this concrete input, whose total is
negative), the source returns the FIRST outcome `"a"`, not the last
outcome `"b"` the claim names. -/
theorem C5_counterexample :
    selectWeighted [] (1 / 2) = "" ∧
    selectLoop ((1 / 2 : ℝ) * probSum [⟨"a", 0, -2, 0, false⟩, ⟨"b", 1, 1, 0, false⟩])
      [⟨"a", 0, -2, 0, false⟩, ⟨"b", 1, 1, 0, false⟩] = none ∧
    selectWeighted [⟨"a", 0, -2, 0, false⟩, ⟨"b", 1, 1, 0, false⟩] (1 / 2) = "a" ∧
    (([⟨"a", 0, -2, 0, false⟩, ⟨"b", 1, 1, 0, false⟩] : List Token).map
      (fun t => t.token)).getLast? = some "b" ∧ ("a" : String) ≠ "b" := by
  refine ⟨rfl, ?_, ?_, by rfl, by decide⟩ <;>
    norm_num [selectWeighted, selectLoop, probSum]

/-- C5 as amended: selection always produces a winner from a non-empty
list; when the cumulative loop selects no outcome the FIRST outcome (not
the last) is the winner; and on the empty list `selectWeighted` returns
the empty string rather than failing. -/
theorem C5_empty_and_guard :
    (∀ r : ℝ, selectWeighted [] r = "") ∧
    (∀ (alts : List Token) (r : ℝ), alts ≠ [] →
      ∃ a ∈ alts, selectWeighted alts r = a.token) ∧
    (∀ (a₀ : Token) (rest : List Token) (r : ℝ),
      selectLoop (r * probSum (a₀ :: rest)) (a₀ :: rest) = none →
      selectWeighted (a₀ :: rest) r = a₀.token) := by
  refine ⟨fun _ => rfl, selectWeighted_winner_mem, ?_⟩
  intro a₀ rest r hnone
  show (match selectLoop (r * probSum (a₀ :: rest)) (a₀ :: rest) with
      | some a => a.token
      | none => a₀.token) = a₀.token
  rw [hnone]

/-- Counterexample for C6: `SpinningWheel.spin` reports the winning
outcome's token verbatim; at this concrete input the draw 1/2 lands on the
synthetic other outcome, whose `is_other` flag is true, and the literal
string `"<OTHER>"` is what reaches the caller. -/
theorem C6_counterexample :
    spinReportedToken [⟨"and", 0, 0.3, 0, false⟩, ⟨"<OTHER>", -1, 0.7, 0, true⟩]
      (1 / 2) = "<OTHER>" ∧
    (([⟨"and", 0, 0.3, 0, false⟩, ⟨"<OTHER>", -1, 0.7, 0, true⟩] : List Token).getD
      (spinSelectedIndex [⟨"and", 0, 0.3, 0, false⟩, ⟨"<OTHER>", -1, 0.7, 0, true⟩]
        (1 / 2)) default).is_other = true := by
  have hidx : spinSelectedIndex
      [⟨"and", 0, 0.3, 0, false⟩, ⟨"<OTHER>", -1, 0.7, 0, true⟩] (1 / 2) = 1 := by
    norm_num [spinSelectedIndex, selectLoopIdx, probSum]
  constructor
  · rw [spinReportedToken, hidx]
    rfl
  · rw [hidx]
    rfl

/-- C6 as amended: in `DiceRoll` (for non-negative probabilities and a
unit-range draw) and in `Plinko`, the token reported to the caller is
always the text of a concrete valid non-other input alternative — when the
"Other" aggregate wins it is resolved from the held-out low-probability
pool, so the literal `"<OTHER>"` (rejected by `isValidToken`) never
reaches the caller; `SpinningWheel` and `SlotMachine`, by contrast, report
the winning outcome's token verbatim (see the counterexample). -/
theorem C6_other_resolution :
    (∀ (alts : List Token) (r : ℝ) (j : ℕ),
      (∀ a ∈ alts, 0 ≤ a.probability) → r ≤ 1 →
      diceReportedToken alts r j = "" ∨
        ∃ a ∈ alts, a.is_other = false ∧ isValidToken a.token = true ∧
          diceReportedToken alts r j = a.token) ∧
    (∀ (alts : List Token) (bin : BinData) (j : ℕ), bin ∈ plinkoBins alts →
      ∃ a ∈ alts, a.is_other = false ∧ isValidToken a.token = true ∧
        plinkoReportedToken bin j = a.token) := by
  constructor
  · intro alts r j hnn hr
    have hsplit := diceSplit_good (filteredMergedSorted alts) _ (fms_goodNN alts hnn)
    unfold diceReportedToken
    exact diceSelectWeighted_good alts _ _ r j
      (fun x hx => (hsplit.1 x hx).1) (fun x hx => (hsplit.2 x hx).1)
      (fun x hx => (hsplit.2 x hx).2) hr
  · intro alts bin j hbin
    exact plinkoReported_good alts bin j hbin

/-- Counterexample for C8: with a `+Infinity` log-probability,
`logprobsToProbs` (replayed over the float domain) returns a token list —
with a NaN probability — instead of failing with any error. -/
theorem C8_counterexample :
    logprobsToProbsFP [⟨"a", FP.inf⟩] =
      [{ token := "a"
         token_id := 0
         probability := FP.nan
         log_probability := FP.inf
         is_other := false }] := rfl

/-- C8 as amended: `logprobsToProbs` performs no input validation at all —
for every input, NaN and +Infinity entries included, it returns one token
per candidate (there is no failure path), silently coercing malformed
input; a NaN log-probability yields a NaN probability. -/
theorem C8_no_validation :
    (∀ cs : List FPRawCandidate, (logprobsToProbsFP cs).length = cs.length) ∧
    logprobsToProbsFP [⟨"a", FP.nan⟩] =
      [{ token := "a"
         token_id := 0
         probability := FP.nan
         log_probability := FP.nan
         is_other := false }] := by
  constructor
  · intro cs
    cases cs with
    | nil => rfl
    | cons a t =>
      show ((a :: t).enum.map _).length = _
      rw [List.length_map, List.enum_length]
  · rfl

/-- C9: `arrangeForCenter` returns a permutation of its input — the same
multiset of `{ alt, colorIndex }` entries, hence the same length and the
same total probability, with no outcome's probability altered — and, for
lists of at least two entries, a maximal-probability entry sits at the
middle position `⌊n/2⌋`, with the remaining ranks alternating around it. -/
theorem C9_center_arrangement (alts : List (ℕ × Token)) :
    (arrangeForCenter alts).Perm alts ∧
    (arrangeForCenter alts).length = alts.length ∧
    pairProbSum (arrangeForCenter alts) = pairProbSum alts ∧
    (2 ≤ alts.length → ∃ l m r, arrangeForCenter alts = l ++ m :: r ∧
      l.length = alts.length / 2 ∧
      (∀ x ∈ alts, x.2.probability ≤ m.2.probability) ∧
      ∀ s0 rest, sortPairsByProbDesc alts = s0 :: rest →
        m = s0 ∧ l = (altSplit rest).1.reverse ∧ r = (altSplit rest).2) := by
  have hperm := arrangeForCenter_perm alts
  refine ⟨hperm, hperm.length_eq,
    by unfold pairProbSum; exact (hperm.map fun q => q.2.probability).sum_eq, ?_⟩
  intro h2
  have hlen : (sortPairsByProbDesc alts).length = alts.length :=
    (sortPairsByProbDesc_perm alts).length_eq
  cases hs : sortPairsByProbDesc alts with
  | nil =>
    rw [hs] at hlen
    simp at hlen
    omega
  | cons s0 rest =>
    refine ⟨(altSplit rest).1.reverse, s0, (altSplit rest).2,
      arrangeForCenter_eq h2 hs, ?_, sortPairs_head_max hs, ?_⟩
    · rw [List.length_reverse, (altSplit_lengths rest).1]
      have hr : rest.length + 1 = alts.length := by
        rw [hs] at hlen
        simpa using hlen
      omega
    · intro s0' rest' hs'
      injection hs' with h1 h2'
      exact ⟨h1, by rw [h2'], by rw [h2']⟩

/-- C10: every game pipeline filters out, before merging, the outcomes
whose tokens fail `isValidToken` and the outcomes already flagged
`is_other`; every merged entry is non-other, has a valid token, and its
text is the text of some valid non-other input; the merge conserves
exactly the filtered mass; the filtered-out mass is exactly the
difference to the input mass (it is dropped); and (for non-negative
probabilities) the Plinko bins' total probability equals the filtered
mass — the dropped mass is not folded into the "Other" bin. -/
theorem C10_invalid_filtering (alts : List Token) :
    (∀ x ∈ mergeTokens (filterValid alts), x.is_other = false ∧
      isValidToken x.token = true ∧
      ∃ y ∈ alts, y.is_other = false ∧ isValidToken y.token = true ∧
        x.token = y.token) ∧
    probSum (mergeTokens (filterValid alts)) = probSum (filterValid alts) ∧
    probSum (filterValid alts) +
      probSum (alts.filter fun a => !(!a.is_other && isValidToken a.token)) =
      probSum alts ∧
    ((∀ a ∈ alts, 0 ≤ a.probability) →
      ((plinkoBins alts).map fun b => b.probability).sum =
        probSum (filterValid alts)) := by
  exact ⟨fun x hx => mergeTokens_good alts x hx,
    probSum_mergeTokens (filterValid alts),
    probSum_filter_split alts,
    fun hnn => plinkoBins_mass alts hnn⟩

end LlmProb
